import Mathlib

/-!
Shallow embedding of the `shortener` repository's core (src/handler.rs,
src/database.rs, src/model.rs) for checking its natural-language
specification.

Modelling conventions:
* Keys and string payloads are byte sequences, modelled as `List Nat`
  (redb's `&str` keys compare by UTF-8 byte order, which for ASCII is the
  numeric order of the bytes). Byte 58 is the ASCII colon, 123 is the
  opening curly bracket, 47 the slash, 48..57 the digits.
* A redb table is an association list of key/value pairs; the on-disk
  table iterates in ascending lexicographic key order, captured by the
  `TableSorted` predicate where ordering matters.
* Stored values are JSON strings in the source.  The claims only ever
  distinguish (a) which record a value deserializes to and (b) whether two
  stored values are byte-identical, so a stored value is modelled as
  `StoredVal`: either the serialization of a record (`good r`, with
  `deser` returning `some r`) or bytes that fail to deserialize
  (`corrupt n`, with `deser` returning `none`).  `serde_json` round-trips
  records, so `good` is injective by construction.
* `Utc::now().timestamp_micros()` is passed in as an explicit `now : Nat`
  parameter (microseconds since the epoch; nonnegative for all realistic
  clocks).  The thread-local RNG is passed as a function `Nat → Nat`
  giving the raw samples used by the `Alphanumeric` distribution.
* A handler that early-returns before `commit`, or panics (the `unwrap`
  on deserialization in `delete_short_url`), drops the write transaction,
  so the database state is unchanged; the model returns the input state
  in those cases.  Each operation is a single atomic state transformer,
  which is exactly the observable behaviour of the one-write-transaction
  protocol in the source.
-/

namespace Shortener

/-- Strict lexicographic byte order on keys, as redb compares `&str` keys. -/
def lexLt : List Nat → List Nat → Bool
  | _, [] => false
  | [], _ :: _ => true
  | a :: as, b :: bs => if a < b then true else if b < a then false else lexLt as bs

/-- Reflexive lexicographic byte order. -/
def lexLe (a b : List Nat) : Bool := lexLt a b || decide (a = b)

/-- Fuel-driven decimal digit expansion (most significant digit first). -/
def decAux : Nat → Nat → List Nat
  | 0, _ => []
  | fuel + 1, n => if n < 10 then [n] else decAux fuel (n / 10) ++ [n % 10]

/-- Decimal digits of `n`, most significant first, as produced by Rust's
`format!("{}", n)` for an unsigned integer. -/
def decDigits (n : Nat) : List Nat := decAux (n + 1) n

/-- ASCII bytes of the decimal representation of `n`. -/
def decBytes (n : Nat) : List Nat := (decDigits n).map (fun d => 48 + d)

/-- Composite secondary-index key `format!("{}:{}", ref_id, micros)` from
`create_short_url` / `delete_short_url`. -/
def indexKey (o : List Nat) (t : Nat) : List Nat := o ++ 58 :: decBytes t

/-- The database record `UrlRecord` from src/model.rs (string fields as
byte sequences, `created_at` as its microsecond timestamp). -/
structure UrlRecord where
  id : List Nat
  original_url : List Nat
  short_url : List Nat
  ref_id : Option (List Nat)
  created_at : Nat
  clicks : Nat
deriving DecidableEq

/-- A value stored in a table: either the JSON serialization of a record
(which deserializes back to it) or bytes that fail to deserialize. -/
inductive StoredVal where
  | good (r : UrlRecord)
  | corrupt (n : Nat)
deriving DecidableEq

/-- `serde_json::from_str::<UrlRecord>` on a stored value. -/
def deser : StoredVal → Option UrlRecord
  | StoredVal.good r => some r
  | StoredVal.corrupt _ => none

/-- A redb table: association list of key/value pairs; kept in ascending
key order by the storage engine (`TableSorted`). -/
abbrev Tbl := List (List Nat × StoredVal)

/-- Point lookup, `table.get(key)`. -/
def tget : Tbl → List Nat → Option StoredVal
  | [], _ => none
  | (k, v) :: rest, key => if k = key then some v else tget rest key

/-- `table.insert(key, value)`: overwrites an existing entry, keeps the
table sorted by key. -/
def tinsert : Tbl → List Nat → StoredVal → Tbl
  | [], k, v => [(k, v)]
  | (k0, v0) :: rest, k, v =>
    if lexLt k k0 then (k, v) :: (k0, v0) :: rest
    else if k = k0 then (k, v) :: rest
    else (k0, v0) :: tinsert rest k v

/-- `table.remove(key)`. -/
def tremove : Tbl → List Nat → Tbl
  | [], _ => []
  | (k0, v0) :: rest, k => if k0 = k then tremove rest k else (k0, v0) :: tremove rest k

/-- `table.range(lo..hi)`: entries with `lo <= key < hi` in table order. -/
def trange (t : Tbl) (lo hi : List Nat) : Tbl :=
  t.filter (fun e => lexLe lo e.1 && lexLt e.1 hi)

/-- The redb invariant that a table iterates in strictly ascending
lexicographic key order. -/
def TableSorted (t : Tbl) : Prop := List.Pairwise (fun a b => lexLt a.1 b.1 = true) t

/-- The two tables of src/database.rs: `urls_v1` (primary, keyed by
identifier) and `ref_index_v1` (secondary, keyed by `{ref_id}:{micros}`). -/
structure Store where
  prim : Tbl
  idx : Tbl
deriving DecidableEq

/-- Request body of the create endpoint (src/model.rs `CreateRequest`). -/
structure CreateRequest where
  url : List Nat
  ref_id : Option (List Nat)
  custom_id : Option (List Nat)

/-- Query parameters of the list endpoint (src/model.rs `ListParams`). -/
structure ListParams where
  ref_id : Option (List Nat)
  page : Option Nat
  limit : Option Nat

/-- Outcome of `create_short_url` visible to the caller. -/
inductive CreateResult where
  | conflict
  | created (r : UrlRecord)
deriving DecidableEq

/-- Outcome of `redirect_url` visible to the caller. -/
inductive RedirectResult where
  | redirect (url : List Nat)
  | notFound
deriving DecidableEq

/-- Outcome of `delete_short_url`: `panicked` models the `unwrap()` panic
on a stored value that fails to deserialize (the handler aborts, the
write transaction is dropped uncommitted). -/
inductive DeleteResult where
  | ok
  | notFound
  | forbidden
  | panicked
deriving DecidableEq

/-- Response envelope of the list endpoint. -/
structure ListResponse where
  page : Nat
  limit : Nat
  total_fetched : Nat
  data : List UrlRecord

/-- The byte charset of rand's `Alphanumeric` distribution:
`A-Z`, `a-z`, `0-9`. -/
def alphanumBytes : List Nat :=
  [65, 66, 67, 68, 69, 70, 71, 72, 73, 74, 75, 76, 77, 78, 79, 80, 81, 82,
   83, 84, 85, 86, 87, 88, 89, 90,
   97, 98, 99, 100, 101, 102, 103, 104, 105, 106, 107, 108, 109, 110, 111,
   112, 113, 114, 115, 116, 117, 118, 119, 120, 121, 122,
   48, 49, 50, 51, 52, 53, 54, 55, 56, 57]

/-- `rand::rng().sample_iter(&Alphanumeric).take(6)`: six uniformly
sampled alphanumeric bytes, driven by the raw sample stream `f`. -/
def genId (f : Nat → Nat) : List Nat :=
  (List.range 6).map (fun i => alphanumBytes.getD (f i % 62) 65)

/-- `payload.custom_id.filter(|id| !id.is_empty())` from
`create_short_url`. -/
def effectiveCustomId (p : CreateRequest) : Option (List Nat) :=
  match p.custom_id with
  | some c => if c.isEmpty then none else some c
  | none => none

/-- The identifier a create call uses: the non-empty custom id if one was
supplied, otherwise a fresh 6-character random id. -/
def idToUse (p : CreateRequest) (f : Nat → Nat) : List Nat :=
  match effectiveCustomId p with
  | some c => c
  | none => genId f

/-- The `UrlRecord` built by `create_short_url` before insertion
(byte 47 is the slash of `format!("{}/{}", domain, id)`). -/
def mkRecord (p : CreateRequest) (f : Nat → Nat) (now : Nat) (domain : List Nat) : UrlRecord :=
  { id := idToUse p f
    original_url := p.url
    short_url := domain ++ 47 :: idToUse p f
    ref_id := p.ref_id
    created_at := now
    clicks := 0 }

/-- `create_short_url` from src/handler.rs: inside one write transaction,
check the primary table for the identifier (conflict aborts with both
tables untouched), insert the serialized record into the primary table,
and, only when `ref_id` is present, insert the same serialized bytes into
the secondary index under `{ref_id}:{micros}`. -/
def create_short_url (s : Store) (p : CreateRequest) (f : Nat → Nat) (now : Nat)
    (domain : List Nat) : CreateResult × Store :=
  let id := idToUse p f
  let record := mkRecord p f now domain
  match tget s.prim id with
  | some _ => (CreateResult.conflict, s)
  | none =>
    let prim2 := tinsert s.prim id (StoredVal.good record)
    match p.ref_id with
    | some o =>
        (CreateResult.created record,
         { prim := prim2, idx := tinsert s.idx (indexKey o now) (StoredVal.good record) })
    | none => (CreateResult.created record, { prim := prim2, idx := s.idx })

/-- `redirect_url` from src/handler.rs: point lookup, 307 redirect on a
record that deserializes, 404 when the id is absent or the stored value
fails to deserialize. -/
def redirect_url (s : Store) (id : List Nat) : RedirectResult :=
  match tget s.prim id with
  | some v =>
    match deser v with
    | some r => RedirectResult.redirect r.original_url
    | none => RedirectResult.notFound
  | none => RedirectResult.notFound

/-- `params.page.unwrap_or(1).max(1)` from `list_urls`. -/
def pageOf (p : ListParams) : Nat := max (p.page.getD 1) 1

/-- `params.limit.unwrap_or(10).min(100)` from `list_urls`. -/
def limitOf (p : ListParams) : Nat := min (p.limit.getD 10) 100

/-- `list_urls` from src/handler.rs.  With a `ref_id`: range-scan the
secondary index over `["{ref}:", "{ref}:{")`, skip `(page-1)*limit`
entries, take `limit`, then deserialize, silently dropping entries that
fail.  Without a `ref_id`: same skip/take/deserialize over the whole
primary table in its native key order.  `total_fetched` is the length of
the returned page. -/
def list_urls (s : Store) (p : ListParams) : ListResponse :=
  let page := pageOf p
  let limit := limitOf p
  let offset := (page - 1) * limit
  let results : List UrlRecord :=
    match p.ref_id with
    | some u =>
        (((trange s.idx (u ++ [58]) (u ++ [58, 123])).drop offset).take limit).filterMap
          (fun e => deser e.2)
    | none => ((s.prim.drop offset).take limit).filterMap (fun e => deser e.2)
  { page := page, limit := limit, total_fetched := results.length, data := results }

/-- The state change performed by a successful `delete_short_url`: remove
the primary entry and, when the record is owned, the index entry under
the recomputed composite key. -/
def deleteApply (s : Store) (id : List Nat) (r : UrlRecord) : Store :=
  { prim := tremove s.prim id
    idx :=
      match r.ref_id with
      | some a => tremove s.idx (indexKey a r.created_at)
      | none => s.idx }

/-- `delete_short_url` from src/handler.rs: read the record (404 when
absent; the `unwrap()` panics when the value fails to deserialize); when
the request carries a `ref_id`, reject with 403 unless the record's
`ref_id` is present and equal; then remove the record from both tables in
the same write transaction. -/
def delete_short_url (s : Store) (id : List Nat) (rq : Option (List Nat)) :
    DeleteResult × Store :=
  match tget s.prim id with
  | none => (DeleteResult.notFound, s)
  | some (StoredVal.corrupt _) => (DeleteResult.panicked, s)
  | some (StoredVal.good r) =>
    match rq with
    | none => (DeleteResult.ok, deleteApply s id r)
    | some b =>
      match r.ref_id with
      | none => (DeleteResult.forbidden, s)
      | some a =>
        if a = b then (DeleteResult.ok, deleteApply s id r)
        else (DeleteResult.forbidden, s)

/-- Numeric value of a most-significant-first decimal digit list (used to
relate lexicographic digit order to numeric order). -/
def digitsVal : List Nat → Nat
  | [] => 0
  | d :: ds => d * 10 ^ ds.length + digitsVal ds

/-- Spec invariant I2, as claimed by C3: an index entry under
`{owner}:{micros}` exists iff some primary record has that owner and
creation time, and the entry's bytes are byte-identical to a primary
value of such a record. -/
def IndexInv (s : Store) : Prop :=
  ∀ o t,
    (∀ v, tget s.idx (indexKey o t) = some v →
      ∃ id r, tget s.prim id = some v ∧ v = StoredVal.good r ∧
        r.ref_id = some o ∧ r.created_at = t) ∧
    (tget s.idx (indexKey o t) = none →
      ∀ id r, tget s.prim id = some (StoredVal.good r) →
        ¬ (r.ref_id = some o ∧ r.created_at = t))

/-- No two distinct primary records share owner and creation time.  This
is what the spec's "created_at is monotonic per-process" buys: without
it a same-microsecond create for the same owner overwrites the other
record's index entry. -/
def OwnerTimeUnique (s : Store) : Prop :=
  ∀ id1 id2 r1 r2 o, tget s.prim id1 = some (StoredVal.good r1) →
    tget s.prim id2 = some (StoredVal.good r2) → r1.ref_id = some o →
    r2.ref_id = some o → r1.created_at = r2.created_at → id1 = id2

/-- A constant raw-sample stream for concrete evaluations. -/
def f0 : Nat → Nat := fun _ => 0

/-- Concrete record owned by `A` (byte 65), created at microsecond 3. -/
def rA : UrlRecord := ⟨[97], [104], [104], some [65], 3, 0⟩

/-- Concrete unowned record, created at microsecond 4. -/
def rN : UrlRecord := ⟨[98], [104], [104], none, 4, 0⟩

/-- Store with one owned and one unowned record, index entry for the
owned one. -/
def sAN : Store :=
  ⟨[([97], StoredVal.good rA), ([98], StoredVal.good rN)],
   [(indexKey [65] 3, StoredVal.good rA)]⟩

/-- Create request with url `h`, owner `o`, custom id `a`. -/
def pC1 : CreateRequest := ⟨[104], some [111], some [97]⟩

/-- Store whose only primary value fails to deserialize. -/
def sCor : Store := ⟨[([97], StoredVal.corrupt 0)], []⟩

/-- Record of owner `a:0` (bytes 97,58,48), created at microsecond 7. -/
def rB2 : UrlRecord := ⟨[99], [104], [104], some [97, 58, 48], 7, 0⟩

/-- Record of owner `a` (byte 97), created at microsecond 5. -/
def rA2 : UrlRecord := ⟨[100], [104], [104], some [97], 5, 0⟩

/-- Index holding one entry for owner `a` and one for owner `a:0`; the
key of the latter is `a:0:7`, which falls inside owner `a`'s scan range. -/
def sC7 : Store :=
  ⟨[], [([97, 58, 48, 58, 55], StoredVal.good rB2), ([97, 58, 53], StoredVal.good rA2)]⟩

/-- Record of owner `a`, created at microsecond 2. -/
def rC6 : UrlRecord := ⟨[98], [99], [99], some [97], 2, 0⟩

/-- Index for owner `a` with a corrupt entry at `a:1` followed by a good
entry at `a:2`. -/
def sC6 : Store :=
  ⟨[], [([97, 58, 49], StoredVal.corrupt 0), ([97, 58, 50], StoredVal.good rC6)]⟩

/-- Record of owner `u` (byte 117) created at microsecond `t`. -/
def wrec (t : Nat) : UrlRecord := ⟨decBytes t, [104], [104], some [117], t, 0⟩

/-- Index with fifteen entries for owner `u`, creation times 1..15. -/
def s15 : Store :=
  ⟨[], (List.range 15).map (fun i => (indexKey [117] (i + 1), StoredVal.good (wrec (i + 1))))⟩

/-- Record of owner `u` created at microsecond 10. -/
def r10 : UrlRecord := ⟨[101], [104], [104], some [117], 10, 0⟩

/-- Record of owner `u` created at microsecond 25. -/
def r25 : UrlRecord := ⟨[102], [104], [104], some [117], 25, 0⟩

/-- Sorted index with two entries for owner `u`, times 10 and 25 (both
two-digit, the analogue of the fixed-width production timestamps). -/
def sC4 : Store :=
  ⟨[], [(indexKey [117] 10, StoredVal.good r10), (indexKey [117] 25, StoredVal.good r25)]⟩

/-- Primary table with ids `a`, `b` whose creation times (9 and 1) are in
the opposite order of the identifiers. -/
def sC9 : Store :=
  ⟨[([97], StoredVal.good ⟨[97], [104], [104], none, 9, 0⟩),
    ([98], StoredVal.good ⟨[98], [104], [104], none, 1, 0⟩)], []⟩

theorem lexLt_irrefl (l : List Nat) : lexLt l l = false := by
  induction l with
  | nil => rfl
  | cons a as ih => simp [lexLt, ih]

theorem lexLt_asymm : ∀ {a b : List Nat}, lexLt a b = true → lexLt b a = false := by
  intro a
  induction a with
  | nil =>
    intro b h
    cases b with
    | nil => simp [lexLt] at h
    | cons c cs => rfl
  | cons x xs ih =>
    intro b h
    cases b with
    | nil => simp [lexLt] at h
    | cons y ys =>
      by_cases hxy : x < y
      · simp [lexLt, hxy, Nat.lt_asymm hxy]
      · by_cases hyx : y < x
        · simp [lexLt, hxy, hyx] at h
        · have hxy2 : x = y := by omega
          subst hxy2
          simp [lexLt, Nat.lt_irrefl] at h ⊢
          exact ih h

theorem lexLt_append (p : List Nat) : ∀ a b, lexLt (p ++ a) (p ++ b) = lexLt a b := by
  induction p with
  | nil => intro a b; rfl
  | cons x xs ih => intro a b; simp [lexLt, Nat.lt_irrefl, ih]

theorem lexLt_nil_cons (c : Nat) (cs : List Nat) : lexLt [] (c :: cs) = true := rfl

theorem lexLt_self_append (p : List Nat) (c : Nat) (cs : List Nat) :
    lexLt p (p ++ c :: cs) = true := by
  have := lexLt_append p [] (c :: cs)
  simpa using this

theorem lexLe_append_self (p s : List Nat) : lexLe p (p ++ s) = true := by
  cases s with
  | nil => simp [lexLe]
  | cons c cs => simp [lexLe, lexLt_self_append]

theorem lexRange_extends_strict : ∀ (p k : List Nat) (c : Nat),
    lexLt p k = true → lexLt k (p ++ [c]) = true → ∃ s, p ++ s = k := by
  intro p
  induction p with
  | nil => intro k c _ _; exact ⟨k, rfl⟩
  | cons x xs ih =>
    intro k c h1 h2
    cases k with
    | nil => simp [lexLt] at h1
    | cons y ys =>
      by_cases hxy : x < y
      · simp [lexLt, hxy, Nat.lt_asymm hxy] at h2
      · by_cases hyx : y < x
        · simp [lexLt, hxy, hyx] at h1
        · have hxy2 : x = y := by omega
          subst hxy2
          simp only [lexLt, Nat.lt_irrefl, if_false, List.cons_append] at h1 h2
          obtain ⟨s, hs⟩ := ih ys c h1 h2
          exact ⟨s, by simp [hs]⟩

theorem lexRange_extends {p k : List Nat} {c : Nat} (h1 : lexLe p k = true)
    (h2 : lexLt k (p ++ [c]) = true) : ∃ s, p ++ s = k := by
  rcases Bool.or_eq_true _ _ |>.mp h1 with h | h
  · exact lexRange_extends_strict p k c h h2
  · exact ⟨[], by simpa using of_decide_eq_true h⟩

theorem sepAppend_inj : ∀ (o1 o2 d1 d2 : List Nat), (∀ b ∈ d1, b ≠ 58) →
    (∀ b ∈ d2, b ≠ 58) → o1 ++ 58 :: d1 = o2 ++ 58 :: d2 → o1 = o2 ∧ d1 = d2 := by
  intro o1
  induction o1 with
  | nil =>
    intro o2 d1 d2 h1 _ heq
    cases o2 with
    | nil => simpa using heq
    | cons c o2t =>
      simp at heq
      exact absurd rfl (h1 58 (by rw [heq.2]; simp))
  | cons a o1t ih =>
    intro o2 d1 d2 h1 h2 heq
    cases o2 with
    | nil =>
      simp at heq
      exact absurd rfl (h2 58 (by rw [← heq.2]; simp))
    | cons c o2t =>
      simp at heq
      obtain ⟨ho, hd⟩ := ih o2t d1 d2 h1 h2 heq.2
      exact ⟨by rw [heq.1, ho], hd⟩

theorem sepExtends : ∀ (u v d : List Nat), (∀ b ∈ d, b ≠ 58) →
    (∃ s, (u ++ [58]) ++ s = v ++ 58 :: d) →
    v = u ∨ ∃ s2, (u ++ [58]) ++ s2 = v := by
  intro u
  induction u with
  | nil =>
    intro v d _ hs
    obtain ⟨s, hs⟩ := hs
    cases v with
    | nil => exact Or.inl rfl
    | cons c vt =>
      simp at hs
      exact Or.inr ⟨vt, by simp [hs.1]⟩
  | cons a ut ih =>
    intro v d hd hs
    obtain ⟨s, hs⟩ := hs
    cases v with
    | nil =>
      simp at hs
      exact absurd rfl (hd 58 (by rw [← hs.2]; simp))
    | cons c vt =>
      simp at hs
      rcases ih vt d hd ⟨s, by simpa using hs.2⟩ with h | ⟨s2, hs2⟩
      · exact Or.inl (by rw [hs.1, h])
      · exact Or.inr ⟨s2, by simp [hs.1, ← hs2]⟩

theorem decAux_irrel : ∀ (f1 n f2 : Nat), n < f1 → n < f2 → decAux f1 n = decAux f2 n := by
  intro f1
  induction f1 with
  | zero => intro n f2 h1 _; omega
  | succ f1 ih =>
    intro n f2 h1 h2
    cases f2 with
    | zero => omega
    | succ f2 =>
      by_cases hn : n < 10
      · simp [decAux, hn]
      · have hlt : n / 10 < n := Nat.div_lt_self (by omega) (by omega)
        simp [decAux, hn, ih (n / 10) f2 (by omega) (by omega)]

theorem decDigits_eq (n : Nat) :
    decDigits n = if n < 10 then [n] else decDigits (n / 10) ++ [n % 10] := by
  by_cases hn : n < 10
  · simp [decDigits, decAux, hn]
  · have hlt : n / 10 < n := Nat.div_lt_self (by omega) (by omega)
    have h1 : decAux (n + 1) n = decAux n (n / 10) ++ [n % 10] := by simp [decAux, hn]
    have h2 : decAux n (n / 10) = decAux (n / 10 + 1) (n / 10) :=
      decAux_irrel n (n / 10) (n / 10 + 1) (by omega) (by omega)
    simp [decDigits, h1, h2, hn]

theorem decDigits_ne_nil (n : Nat) : decDigits n ≠ [] := by
  rw [decDigits_eq]
  split <;> simp

theorem decDigits_le9 (n : Nat) : ∀ d ∈ decDigits n, d ≤ 9 := by
  induction n using Nat.strong_induction_on with
  | _ n ih =>
    rw [decDigits_eq]
    split
    · intro d hd
      simp at hd
      omega
    · intro d hd
      simp at hd
      rcases hd with hd | hd
      · exact ih (n / 10) (Nat.div_lt_self (by omega) (by omega)) d hd
      · omega

theorem digitsVal_append (l : List Nat) (x : Nat) :
    digitsVal (l ++ [x]) = 10 * digitsVal l + x := by
  induction l with
  | nil => simp [digitsVal]
  | cons d ds ih =>
    simp [digitsVal, ih, List.length_append, pow_succ]
    ring

theorem digitsVal_decDigits (n : Nat) : digitsVal (decDigits n) = n := by
  induction n using Nat.strong_induction_on with
  | _ n ih =>
    rw [decDigits_eq]
    split
    · simp [digitsVal]
    · rw [digitsVal_append, ih (n / 10) (Nat.div_lt_self (by omega) (by omega))]
      omega

theorem decDigits_inj {a b : Nat} (h : decDigits a = decDigits b) : a = b := by
  have ha := digitsVal_decDigits a
  rw [h, digitsVal_decDigits] at ha
  omega

theorem digitsVal_lt (l : List Nat) (h : ∀ d ∈ l, d ≤ 9) :
    digitsVal l < 10 ^ l.length := by
  induction l with
  | nil => simp [digitsVal]
  | cons d ds ih =>
    have hd : d ≤ 9 := h d (by simp)
    have hds : digitsVal ds < 10 ^ ds.length := ih (fun x hx => h x (by simp [hx]))
    have h1 : d * 10 ^ ds.length + digitsVal ds < (d + 1) * 10 ^ ds.length := by
      rw [Nat.succ_mul]
      omega
    have h2 : (d + 1) * 10 ^ ds.length ≤ 10 * 10 ^ ds.length :=
      Nat.mul_le_mul_right _ (by omega)
    simp only [digitsVal, List.length_cons, pow_succ]
    calc d * 10 ^ ds.length + digitsVal ds < (d + 1) * 10 ^ ds.length := h1
      _ ≤ 10 * 10 ^ ds.length := h2
      _ = 10 ^ ds.length * 10 := by ring

theorem decDigits_length_le : ∀ (k n : Nat), n < 10 ^ (k + 1) →
    (decDigits n).length ≤ k + 1 := by
  intro k
  induction k with
  | zero =>
    intro n h
    rw [decDigits_eq]
    simp at h
    simp [h]
  | succ k ih =>
    intro n h
    rw [decDigits_eq]
    split
    · simp
    · have hdiv : n / 10 < 10 ^ (k + 1) := by
        rw [Nat.div_lt_iff_lt_mul (by omega)]
        calc n < 10 ^ (k + 1 + 1) := h
          _ = 10 ^ (k + 1) * 10 := by rw [pow_succ]
      have := ih (n / 10) hdiv
      simp [List.length_append]
      omega

theorem decDigits_length_ge : ∀ (k n : Nat), 10 ^ k ≤ n →
    k + 1 ≤ (decDigits n).length := by
  intro k
  induction k with
  | zero =>
    intro n _
    cases hl : decDigits n with
    | nil => exact absurd hl (decDigits_ne_nil n)
    | cons d ds => simp
  | succ k ih =>
    intro n h
    have hten : (10 : Nat) ≤ 10 ^ (k + 1) := by
      calc (10 : Nat) = 10 ^ 1 := (pow_one 10).symm
        _ ≤ 10 ^ (k + 1) := Nat.pow_le_pow_right (by omega) (by omega)
    have h10 : ¬ n < 10 := by omega
    rw [decDigits_eq]
    simp only [h10, if_false, List.length_append, List.length_cons, List.length_nil]
    have hdiv : 10 ^ k ≤ n / 10 := by
      rw [Nat.le_div_iff_mul_le (by omega)]
      calc 10 ^ k * 10 = 10 ^ (k + 1) := (pow_succ 10 k).symm
        _ ≤ n := h
    have := ih (n / 10) hdiv
    omega

theorem decDigits_length_eq {k n : Nat} (h1 : 10 ^ k ≤ n) (h2 : n < 10 ^ (k + 1)) :
    (decDigits n).length = k + 1 :=
  Nat.le_antisymm (decDigits_length_le k n h2) (decDigits_length_ge k n h1)

theorem lexLt_of_val_lt : ∀ (l1 l2 : List Nat), l1.length = l2.length →
    (∀ d ∈ l2, d ≤ 9) → digitsVal l1 < digitsVal l2 → lexLt l1 l2 = true := by
  intro l1
  induction l1 with
  | nil =>
    intro l2 hlen _ hv
    cases l2 with
    | nil => simp [digitsVal] at hv
    | cons b bs => simp at hlen
  | cons a as ih =>
    intro l2 hlen h9 hv
    cases l2 with
    | nil => simp at hlen
    | cons b bs =>
      have hlen2 : as.length = bs.length := by simpa using hlen
      by_cases hab : a < b
      · simp [lexLt, hab]
      · by_cases hba : b < a
        · exfalso
          have hbs : digitsVal bs < 10 ^ bs.length :=
            digitsVal_lt bs (fun x hx => h9 x (by simp [hx]))
          have hle : (b + 1) * 10 ^ bs.length ≤ a * 10 ^ as.length := by
            rw [hlen2]
            exact Nat.mul_le_mul_right _ (by omega)
          simp only [digitsVal] at hv
          have hsucc : b * 10 ^ bs.length + digitsVal bs < (b + 1) * 10 ^ bs.length := by
            rw [Nat.succ_mul]
            omega
          omega
        · have hab2 : a = b := by omega
          subst hab2
          simp only [digitsVal] at hv
          rw [hlen2] at hv
          have hv2 : digitsVal as < digitsVal bs := Nat.lt_of_add_lt_add_left hv
          simp only [lexLt, Nat.lt_irrefl, if_false]
          exact ih bs hlen2 (fun x hx => h9 x (by simp [hx])) hv2

theorem lexLt_map48 : ∀ (l1 l2 : List Nat),
    lexLt (l1.map (fun d => 48 + d)) (l2.map (fun d => 48 + d)) = lexLt l1 l2 := by
  intro l1
  induction l1 with
  | nil => intro l2; cases l2 <;> rfl
  | cons a as ih =>
    intro l2
    cases l2 with
    | nil => rfl
    | cons b bs => simp [lexLt, Nat.add_lt_add_iff_left, ih]

theorem decBytes_range (n : Nat) : ∀ b ∈ decBytes n, 48 ≤ b ∧ b ≤ 57 := by
  intro b hb
  simp [decBytes] at hb
  obtain ⟨d, hd, rfl⟩ := hb
  have := decDigits_le9 n d hd
  omega

theorem decBytes_ne58 (n : Nat) : ∀ b ∈ decBytes n, b ≠ 58 := by
  intro b hb
  have := decBytes_range n b hb
  omega

theorem decBytes_inj {a b : Nat} (h : decBytes a = decBytes b) : a = b := by
  refine decDigits_inj (List.map_injective_iff.mpr (fun x y hxy => by omega) h)

theorem decBytes_ne_nil (n : Nat) : decBytes n ≠ [] := by
  simp [decBytes, decDigits_ne_nil]

theorem decBytes_lexLt {k t1 t2 : Nat} (h1 : 10 ^ k ≤ t1) (h2 : t1 < t2)
    (h3 : t2 < 10 ^ (k + 1)) : lexLt (decBytes t1) (decBytes t2) = true := by
  have len1 : (decDigits t1).length = k + 1 := decDigits_length_eq h1 (by omega)
  have len2 : (decDigits t2).length = k + 1 := decDigits_length_eq (by omega) h3
  rw [decBytes, decBytes, lexLt_map48]
  refine lexLt_of_val_lt _ _ (by rw [len1, len2]) (decDigits_le9 t2) ?_
  rw [digitsVal_decDigits, digitsVal_decDigits]
  exact h2

theorem indexKey_flat (o : List Nat) (t : Nat) :
    indexKey o t = (o ++ [58]) ++ decBytes t := by
  simp [indexKey]

theorem indexKey_inj {o1 o2 : List Nat} {t1 t2 : Nat}
    (h : indexKey o1 t1 = indexKey o2 t2) : o1 = o2 ∧ t1 = t2 := by
  obtain ⟨ho, hd⟩ := sepAppend_inj o1 o2 _ _ (decBytes_ne58 t1) (decBytes_ne58 t2) h
  exact ⟨ho, decBytes_inj hd⟩

theorem indexKey_lexLt {u : List Nat} {k t1 t2 : Nat} (h1 : 10 ^ k ≤ t1)
    (h2 : t1 < t2) (h3 : t2 < 10 ^ (k + 1)) :
    lexLt (indexKey u t1) (indexKey u t2) = true := by
  rw [indexKey_flat, indexKey_flat, lexLt_append]
  exact decBytes_lexLt h1 h2 h3

theorem indexKey_lt_of_lexLt {u : List Nat} {k t1 t2 : Nat} (_h1 : 10 ^ k ≤ t1)
    (h1b : t1 < 10 ^ (k + 1)) (h2 : 10 ^ k ≤ t2) (h2b : t2 < 10 ^ (k + 1))
    (h : lexLt (indexKey u t1) (indexKey u t2) = true) : t1 < t2 := by
  rcases Nat.lt_trichotomy t1 t2 with hlt | heq | hgt
  · exact hlt
  · subst heq
    rw [lexLt_irrefl] at h
    exact absurd h (by simp)
  · have := indexKey_lexLt (u := u) h2 hgt h1b
    have := lexLt_asymm this
    rw [h] at this
    exact absurd this (by simp)

theorem tget_tinsert (t : Tbl) (k : List Nat) (v : StoredVal) :
    ∀ q, tget (tinsert t k v) q = if q = k then some v else tget t q := by
  induction t with
  | nil =>
    intro q
    by_cases h : q = k
    · simp [tinsert, tget, h]
    · have h4 : ¬ (k = q) := fun hh => h hh.symm
      simp [tinsert, tget, h, h4]
  | cons e rest ih =>
    obtain ⟨k0, v0⟩ := e
    intro q
    simp only [tinsert]
    split
    · by_cases h : q = k
      · simp [tget, h]
      · have h4 : ¬ (k = q) := fun hh => h hh.symm
        simp [tget, h, h4]
    · split
      · rename_i hk0
        by_cases h : q = k
        · simp [tget, h, hk0.symm]
        · have h2 : ¬ (k = q) := fun hh => h hh.symm
          have h3 : ¬ (k0 = q) := by rw [← hk0]; exact h2
          simp [tget, h, h2, h3]
      · rename_i hk0
        by_cases h : q = k0
        · have h2 : ¬ (q = k) := fun hh => hk0 (hh.symm.trans h)
          have h2b : ¬ (k0 = k) := fun hh => hk0 hh.symm
          simp [tget, h, h2, h2b]
        · have h3 : ¬ (k0 = q) := fun hh => h hh.symm
          simp [tget, h3, ih q]

theorem tget_tremove (t : Tbl) (k : List Nat) :
    ∀ q, tget (tremove t k) q = if q = k then none else tget t q := by
  induction t with
  | nil => intro q; simp [tremove, tget]
  | cons e rest ih =>
    obtain ⟨k0, v0⟩ := e
    intro q
    simp only [tremove]
    split
    · rename_i hk0
      subst hk0
      rw [ih q]
      by_cases h : q = k0
      · simp [h]
      · have h3 : ¬ (k0 = q) := fun hh => h hh.symm
        simp [tget, h, h3]
    · rename_i hk0
      by_cases h : q = k0
      · have h2 : ¬ (q = k) := fun hh => hk0 (h.symm.trans hh)
        simp [tget, h, h2, hk0]
      · have h3 : ¬ (k0 = q) := fun hh => h hh.symm
        simp [tget, h3, ih q]

theorem mem_trange {t : Tbl} {lo hi : List Nat} {e : List Nat × StoredVal} :
    e ∈ trange t lo hi ↔ e ∈ t ∧ lexLe lo e.1 = true ∧ lexLt e.1 hi = true := by
  simp [trange, List.mem_filter, Bool.and_eq_true]

theorem trange_sublist (t : Tbl) (lo hi : List Nat) : (trange t lo hi).Sublist t :=
  List.filter_sublist t

theorem pairwise_of_filterMap {α β : Type} {R : β → β → Prop} (f : α → Option β)
    {l : List α}
    (h : List.Pairwise (fun a b => ∀ x y, f a = some x → f b = some y → R x y) l) :
    List.Pairwise R (l.filterMap f) := by
  induction l with
  | nil => simp
  | cons a l ih =>
    rw [List.filterMap_cons]
    cases h with
    | cons ha hl =>
      cases hfa : f a with
      | none => exact ih hl
      | some x =>
        constructor
        · intro y hy
          obtain ⟨b, hb, hfb⟩ := List.mem_filterMap.mp hy
          exact ha b hb x y hfa hfb
        · exact ih hl

theorem length_filterMap_of_isSome {α β : Type} (f : α → Option β) :
    ∀ (l : List α), (∀ e ∈ l, (f e).isSome = true) →
      (l.filterMap f).length = l.length := by
  intro l
  induction l with
  | nil => simp
  | cons a l ih =>
    intro h
    rw [List.filterMap_cons]
    have ha := h a (by simp)
    cases hfa : f a with
    | none => rw [hfa] at ha; simp at ha
    | some x => simp [ih (fun e he => h e (by simp [he]))]

theorem length_filterMap_add_dropped {α β : Type} (f : α → Option β) :
    ∀ (l : List α),
      (l.filterMap f).length + (l.filter (fun e => (f e).isNone)).length = l.length := by
  intro l
  induction l with
  | nil => simp
  | cons a l ih =>
    cases hfa : f a with
    | none => simp [List.filterMap_cons, List.filter_cons, hfa]; omega
    | some x => simp [List.filterMap_cons, List.filter_cons, hfa]; omega

/-- Claim C1: a create whose identifier is already present in the primary
table fails with a conflict, regardless of the rest of the payload; the
existing record is not overwritten and both tables are left exactly as
they were (the check and the insert are one atomic state transformer,
matching the single write transaction of the source). -/
theorem claim_C1_conflict_preserves_state (s : Store) (p : CreateRequest) (f : Nat → Nat)
    (now : Nat) (dom : List Nat) (v : StoredVal)
    (h : tget s.prim (idToUse p f) = some v) :
    create_short_url s p f now dom = (CreateResult.conflict, s) := by
  simp [create_short_url, h]

theorem claim_C1_witness :
    create_short_url sAN pC1 f0 9 [] = (CreateResult.conflict, sAN) :=
  claim_C1_conflict_preserves_state sAN pC1 f0 9 [] (StoredVal.good rA) (by decide)

/-- Claim C2: delete returns not-found when the id is absent; with a
requester reference it is forbidden when the record is unowned or owned
by someone else, and succeeds when the owner matches; with no requester
reference it succeeds unconditionally. -/
theorem claim_C2_delete_authorization (s : Store) (id : List Nat) :
    (tget s.prim id = none →
      ∀ rq, delete_short_url s id rq = (DeleteResult.notFound, s)) ∧
    (∀ r, tget s.prim id = some (StoredVal.good r) →
      (∀ b, r.ref_id = none →
        delete_short_url s id (some b) = (DeleteResult.forbidden, s)) ∧
      (∀ a b, r.ref_id = some a → a ≠ b →
        delete_short_url s id (some b) = (DeleteResult.forbidden, s)) ∧
      (∀ a, r.ref_id = some a →
        (delete_short_url s id (some a)).1 = DeleteResult.ok) ∧
      ((delete_short_url s id none).1 = DeleteResult.ok)) := by
  constructor
  · intro h rq
    simp [delete_short_url, h]
  · intro r hr
    refine ⟨?_, ?_, ?_, ?_⟩
    · intro b hb
      simp [delete_short_url, hr, hb]
    · intro a b ha hab
      simp [delete_short_url, hr, ha, hab]
    · intro a ha
      simp [delete_short_url, hr, ha]
    · simp [delete_short_url, hr]

theorem claim_C2_witness :
    delete_short_url sAN [99] (some [65]) = (DeleteResult.notFound, sAN) ∧
    delete_short_url sAN [98] (some [65]) = (DeleteResult.forbidden, sAN) ∧
    delete_short_url sAN [97] (some [66]) = (DeleteResult.forbidden, sAN) ∧
    (delete_short_url sAN [97] (some [65])).1 = DeleteResult.ok ∧
    (delete_short_url sAN [97] none).1 = DeleteResult.ok := by
  refine ⟨?_, ?_, ?_, ?_, ?_⟩
  · exact (claim_C2_delete_authorization sAN [99]).1 (by decide) (some [65])
  · exact ((claim_C2_delete_authorization sAN [98]).2 rN (by decide)).1 [65] (by decide)
  · exact ((claim_C2_delete_authorization sAN [97]).2 rA (by decide)).2.1 [65] [66]
      (by decide) (by decide)
  · exact ((claim_C2_delete_authorization sAN [97]).2 rA (by decide)).2.2.1 [65] (by decide)
  · exact ((claim_C2_delete_authorization sAN [97]).2 rA (by decide)).2.2.2

/-- Claim C5 (counterexample): on a primary value that fails to
deserialize, delete does not behave as if the record were absent: the
`unwrap()` in `delete_short_url` panics (surfacing as a process error, a
distinct outcome), instead of returning not-found the way `redirect_url`
does on the very same store. -/
theorem claim_C5_counterexample :
    (delete_short_url sCor [97] none).1 = DeleteResult.panicked ∧
    (delete_short_url sCor [97] none).1 ≠ DeleteResult.notFound ∧
    redirect_url sCor [97] = RedirectResult.notFound := by
  decide

/-- Claim C5 (amended): a stored value that fails to deserialize is
treated as absence by the point-read path (`redirect_url` returns
not-found exactly as for a missing id), but not by delete: the read that
delete performs to discover ownership panics on such a value, aborting
with the state unchanged rather than reporting not-found. -/
theorem claim_C5_amended_corruption_handling :
    (∀ s id n, tget s.prim id = some (StoredVal.corrupt n) →
      redirect_url s id = RedirectResult.notFound) ∧
    (∀ s id, tget s.prim id = none → redirect_url s id = RedirectResult.notFound) ∧
    (∀ s id rq n, tget s.prim id = some (StoredVal.corrupt n) →
      delete_short_url s id rq = (DeleteResult.panicked, s)) := by
  refine ⟨?_, ?_, ?_⟩
  · intro s id n h
    simp [redirect_url, h, deser]
  · intro s id h
    simp [redirect_url, h]
  · intro s id rq n h
    simp [delete_short_url, h]

theorem claim_C5_amended_witness :
    redirect_url sCor [97] = RedirectResult.notFound ∧
    delete_short_url sCor [97] (some [65]) = (DeleteResult.panicked, sCor) :=
  ⟨claim_C5_amended_corruption_handling.1 sCor [97] 0 (by decide),
   claim_C5_amended_corruption_handling.2.2 sCor [97] (some [65]) 0 (by decide)⟩

/-- Claim C10: an absent or empty custom id is treated as absent and the
create uses a freshly generated identifier of exactly six bytes from the
alphanumeric alphabet; every insert into the primary table happens under
the non-empty key `idToUse`, whose value is the record with `id` equal to
that key, so no record is ever stored under the empty key and the stored
`id` field always equals the key. -/
theorem claim_C10_generated_identifier :
    (∀ f, (genId f).length = 6 ∧ ∀ b ∈ genId f, b ∈ alphanumBytes) ∧
    (∀ p f, (p.custom_id = none ∨ p.custom_id = some ([] : List Nat)) →
      idToUse p f = genId f) ∧
    (∀ p f, idToUse p f ≠ []) ∧
    (∀ p f now dom, (mkRecord p f now dom).id = idToUse p f) ∧
    (∀ s p f now dom,
      (create_short_url s p f now dom).2.prim = s.prim ∨
      (create_short_url s p f now dom).2.prim =
        tinsert s.prim (idToUse p f) (StoredVal.good (mkRecord p f now dom))) := by
  have hgen : ∀ f, (genId f).length = 6 ∧ ∀ b ∈ genId f, b ∈ alphanumBytes := by
    intro f
    constructor
    · simp [genId]
    · intro b hb
      simp only [genId, List.mem_map, List.mem_range] at hb
      obtain ⟨i, _, rfl⟩ := hb
      have hlt : f i % 62 < 62 := Nat.mod_lt _ (by omega)
      have hmem : ∀ m, m < 62 → alphanumBytes.getD m 65 ∈ alphanumBytes := by decide
      exact hmem _ hlt
  refine ⟨hgen, ?_, ?_, ?_, ?_⟩
  · intro p f h
    rcases h with h | h <;> simp [idToUse, effectiveCustomId, h]
  · intro p f
    simp only [idToUse]
    cases hc : effectiveCustomId p with
    | none =>
      intro h
      have h2 : genId f = [] := h
      have h6 := (hgen f).1
      rw [h2] at h6
      simp at h6
    | some c =>
      simp only [effectiveCustomId] at hc
      cases hcustom : p.custom_id with
      | none => rw [hcustom] at hc; simp at hc
      | some c0 =>
        rw [hcustom] at hc
        by_cases he : c0.isEmpty
        · simp [he] at hc
        · simp [he] at hc
          subst hc
          simpa using he
  · intro p f now dom
    rfl
  · intro s p f now dom
    cases htg : tget s.prim (idToUse p f) with
    | some v =>
      left
      simp [create_short_url, htg]
    | none =>
      right
      cases ho : p.ref_id <;> simp [create_short_url, htg, ho]

theorem claim_C10_witness :
    (genId f0).length = 6 ∧
    (65 ∈ genId f0 → 65 ∈ alphanumBytes) ∧
    idToUse ⟨[104], none, some []⟩ f0 = genId f0 ∧
    idToUse pC1 f0 ≠ [] :=
  ⟨(claim_C10_generated_identifier.1 f0).1,
   fun h => (claim_C10_generated_identifier.1 f0).2 65 h,
   claim_C10_generated_identifier.2.1 ⟨[104], none, some []⟩ f0 (Or.inr rfl),
   claim_C10_generated_identifier.2.2.1 pC1 f0⟩

theorem deser_eq_some {v : StoredVal} {r : UrlRecord} :
    deser v = some r ↔ v = StoredVal.good r := by
  cases v <;> simp [deser]

/-- Claim C6 (counterexample): with limit 1 and page 1, a corrupt index
entry sitting before a deserializable one makes the page empty even
though one deserializable entry remains after the skip, so corrupt
entries do count toward the limit. -/
theorem claim_C6_counterexample :
    1 ≤ ((trange sC6.idx ([97] ++ [58]) ([97] ++ [58, 123])).filterMap
        (fun e => deser e.2)).length ∧
    limitOf ⟨some [97], some 1, some 1⟩ = 1 ∧
    (list_urls sC6 ⟨some [97], some 1, some 1⟩).data.length = 0 := by
  decide

/-- Claim C6 (amended): entries that fail to deserialize are silently
dropped from the returned page, but they do occupy slots of the
skip/take window (skip and take run before deserialization in the
source), so the page length plus the number of corrupt entries in the
window equals the window length, which is at most the limit; the page
can be shorter than the limit even when enough deserializable entries
remain. -/
theorem claim_C6_amended_corrupt_in_window (s : Store) (prms : ListParams) (u : List Nat)
    (hu : prms.ref_id = some u) :
    (list_urls s prms).data =
      (((trange s.idx (u ++ [58]) (u ++ [58, 123])).drop
          ((pageOf prms - 1) * limitOf prms)).take (limitOf prms)).filterMap
        (fun e => deser e.2) ∧
    (list_urls s prms).data.length +
      ((((trange s.idx (u ++ [58]) (u ++ [58, 123])).drop
          ((pageOf prms - 1) * limitOf prms)).take (limitOf prms)).filter
        (fun e => (deser e.2).isNone)).length =
      (((trange s.idx (u ++ [58]) (u ++ [58, 123])).drop
          ((pageOf prms - 1) * limitOf prms)).take (limitOf prms)).length ∧
    (list_urls s prms).data.length ≤ limitOf prms := by
  have hdata : (list_urls s prms).data =
      (((trange s.idx (u ++ [58]) (u ++ [58, 123])).drop
          ((pageOf prms - 1) * limitOf prms)).take (limitOf prms)).filterMap
        (fun e => deser e.2) := by
    simp [list_urls, hu]
  refine ⟨hdata, ?_, ?_⟩
  · rw [hdata]
    exact length_filterMap_add_dropped _ _
  · rw [hdata]
    calc ((((trange s.idx (u ++ [58]) (u ++ [58, 123])).drop
          ((pageOf prms - 1) * limitOf prms)).take (limitOf prms)).filterMap
        (fun e => deser e.2)).length
        ≤ (((trange s.idx (u ++ [58]) (u ++ [58, 123])).drop
          ((pageOf prms - 1) * limitOf prms)).take (limitOf prms)).length :=
          List.length_filterMap_le _ _
      _ ≤ limitOf prms := List.length_take_le _ _

theorem claim_C6_amended_witness :
    (list_urls sC6 ⟨some [97], some 1, some 1⟩).data.length ≤
      limitOf ⟨some [97], some 1, some 1⟩ :=
  (claim_C6_amended_corrupt_in_window sC6 ⟨some [97], some 1, some 1⟩ [97] rfl).2.2

/-- Claim C7 (counterexample): the scan range for owner `a` (byte 97)
also captures the index entry of the distinct owner `a:0` (bytes
97,58,48), because that owner's name extends `a:` — so the half-open
range does not bound the scan to exactly the entries of owner `a`. -/
theorem claim_C7_counterexample :
    ([97, 58, 48, 58, 55], StoredVal.good rB2) ∈
      trange sC7.idx ([97] ++ [58]) ([97] ++ [58, 123]) ∧
    [97, 58, 48, 58, 55] = indexKey [97, 58, 48] 7 ∧
    rB2.ref_id = some [97, 58, 48] ∧
    (∀ t, [97, 58, 48, 58, 55] ≠ indexKey [97] t) := by
  refine ⟨by decide, by decide, by decide, ?_⟩
  intro t h
  have h2 : [97, 58] ++ [48, 58, 55] = [97, 58] ++ decBytes t := by
    rw [indexKey_flat] at h
    simpa using h
  have h3 : decBytes t = [48, 58, 55] := (List.append_cancel_left h2).symm
  exact decBytes_ne58 t 58 (by rw [h3]; simp) rfl

/-- Claim C7 (amended): for a well-formed index, the half-open scan from
`u:` to `u:{` yields exactly the entries keyed `u:{timestamp}`, provided
no other owner's reference extends `u:` (an owner reference that begins
with `u` followed by a colon leaks into `u`'s scan, as the
counterexample shows). -/
theorem claim_C7_amended_scan_bounds (s : Store) (u : List Nat)
    (hwf : ∀ e ∈ s.idx, ∃ v t, e.1 = indexKey v t ∧
      (v = u ∨ ∀ s2, (u ++ [58]) ++ s2 ≠ v)) :
    ∀ e, e ∈ trange s.idx (u ++ [58]) (u ++ [58, 123]) ↔
      (e ∈ s.idx ∧ ∃ t, e.1 = indexKey u t) := by
  intro e
  constructor
  · intro he
    obtain ⟨hmem, hlo, hhi⟩ := mem_trange.mp he
    obtain ⟨v, t, hk, hv⟩ := hwf e hmem
    refine ⟨hmem, ?_⟩
    rcases hv with rfl | hnv
    · exact ⟨t, hk⟩
    · have hhi2 : lexLt e.1 ((u ++ [58]) ++ [123]) = true := by
        have hr : u ++ [58, 123] = (u ++ [58]) ++ [123] := by simp
        rw [← hr]
        exact hhi
      obtain ⟨s0, hs0⟩ := lexRange_extends hlo hhi2
      rw [hk, indexKey] at hs0
      rcases sepExtends u v (decBytes t) (decBytes_ne58 t) ⟨s0, hs0⟩ with heq | ⟨s2, hs2⟩
      · exact ⟨t, by rw [hk, heq]⟩
      · exact absurd hs2 (hnv s2)
  · intro he
    obtain ⟨hmem, t, hk⟩ := he
    refine mem_trange.mpr ⟨hmem, ?_, ?_⟩
    · rw [hk, indexKey_flat]
      exact lexLe_append_self _ _
    · rw [hk, indexKey_flat]
      have hr : u ++ [58, 123] = (u ++ [58]) ++ [123] := by simp
      rw [hr, lexLt_append]
      cases hd : decBytes t with
      | nil => exact absurd hd (decBytes_ne_nil t)
      | cons b rest =>
        have hb := (decBytes_range t b (by rw [hd]; simp)).2
        simp [lexLt, show b < 123 by omega]

theorem claim_C7_amended_witness :
    (indexKey [117] 10, StoredVal.good r10) ∈
      trange sC4.idx ([117] ++ [58]) ([117] ++ [58, 123]) ↔
    ((indexKey [117] 10, StoredVal.good r10) ∈ sC4.idx ∧
      ∃ t, (indexKey [117] 10, StoredVal.good r10).1 = indexKey [117] t) :=
  claim_C7_amended_scan_bounds sC4 [117]
    (by
      intro e he
      rcases List.mem_cons.mp he with rfl | h2
      · exact ⟨[117], 10, rfl, Or.inl rfl⟩
      · obtain rfl := List.mem_singleton.mp h2
        exact ⟨[117], 25, rfl, Or.inl rfl⟩)
    (indexKey [117] 10, StoredVal.good r10)

/-- Claim C8: with page `p ≥ 1` and limit `l ∈ [1,100]`, the owner scan
skips `(p-1)*l` entries and returns at most `l` records; when every
scanned entry deserializes, the page length is exactly
`min l (N - (p-1)*l)` for `N` entries of the owner (so 15 records give
pages of 10, 5 and 0 at limit 10), and `total_fetched` is the length of
the returned page, not a count across pages. -/
theorem claim_C8_pagination (s : Store) (prms : ListParams) (u : List Nat) (pg lm : Nat)
    (hu : prms.ref_id = some u) (hp : prms.page = some pg) (hl : prms.limit = some lm)
    (hp1 : 1 ≤ pg) (hl100 : lm ≤ 100)
    (hall : ∀ e ∈ trange s.idx (u ++ [58]) (u ++ [58, 123]),
      (deser e.2).isSome = true) :
    (list_urls s prms).data.length =
      min lm ((trange s.idx (u ++ [58]) (u ++ [58, 123])).length - (pg - 1) * lm) ∧
    (list_urls s prms).total_fetched = (list_urls s prms).data.length ∧
    (list_urls s prms).data.length ≤ lm := by
  have hpage : pageOf prms = pg := by
    simp [pageOf, hp]
    omega
  have hlimit : limitOf prms = lm := by
    simp [limitOf, hl]
    omega
  have hdata : (list_urls s prms).data =
      (((trange s.idx (u ++ [58]) (u ++ [58, 123])).drop ((pg - 1) * lm)).take lm).filterMap
        (fun e => deser e.2) := by
    simp [list_urls, hu, hpage, hlimit]
  have hsub : ((((trange s.idx (u ++ [58]) (u ++ [58, 123])).drop
      ((pg - 1) * lm)).take lm)).Sublist (trange s.idx (u ++ [58]) (u ++ [58, 123])) :=
    (List.take_sublist _ _).trans (List.drop_sublist _ _)
  have hlen : (list_urls s prms).data.length =
      min lm ((trange s.idx (u ++ [58]) (u ++ [58, 123])).length - (pg - 1) * lm) := by
    rw [hdata, length_filterMap_of_isSome _ _ (fun e he => hall e (hsub.subset he))]
    rw [List.length_take, List.length_drop]
  refine ⟨hlen, rfl, by omega⟩

theorem claim_C8_witness :
    (list_urls s15 ⟨some [117], some 1, some 10⟩).data.length = 10 ∧
    (list_urls s15 ⟨some [117], some 2, some 10⟩).data.length = 5 ∧
    (list_urls s15 ⟨some [117], some 3, some 10⟩).data.length = 0 := by
  have h1 := claim_C8_pagination s15 ⟨some [117], some 1, some 10⟩ [117] 1 10
    rfl rfl rfl (by omega) (by omega) (by decide)
  have h2 := claim_C8_pagination s15 ⟨some [117], some 2, some 10⟩ [117] 2 10
    rfl rfl rfl (by omega) (by omega) (by decide)
  have h3 := claim_C8_pagination s15 ⟨some [117], some 3, some 10⟩ [117] 3 10
    rfl rfl rfl (by omega) (by omega) (by decide)
  refine ⟨?_, ?_, ?_⟩
  · rw [h1.1]
    decide
  · rw [h2.1]
    decide
  · rw [h3.1]
    decide

/-- Claim C9: with no owner filter, the page is drawn from the entire
primary table in its native order — ascending lexicographic identifier
order, not creation order — with the same skip/take window applied to
that sequence; under invariant I1 (stored id equals the key) the
returned records are therefore in strictly ascending identifier order. -/
theorem claim_C9_unscoped_listing (s : Store) (prms : ListParams)
    (hr : prms.ref_id = none) (hs : TableSorted s.prim)
    (hwf : ∀ e ∈ s.prim, ∀ r, e.2 = StoredVal.good r → r.id = e.1) :
    (list_urls s prms).data =
      ((s.prim.drop ((pageOf prms - 1) * limitOf prms)).take (limitOf prms)).filterMap
        (fun e => deser e.2) ∧
    List.Pairwise (fun r1 r2 => lexLt r1.id r2.id = true) (list_urls s prms).data := by
  have hdata : (list_urls s prms).data =
      ((s.prim.drop ((pageOf prms - 1) * limitOf prms)).take (limitOf prms)).filterMap
        (fun e => deser e.2) := by
    simp [list_urls, hr]
  refine ⟨hdata, ?_⟩
  rw [hdata]
  apply pairwise_of_filterMap
  have hsub : ((s.prim.drop ((pageOf prms - 1) * limitOf prms)).take
      (limitOf prms)).Sublist s.prim :=
    (List.take_sublist _ _).trans (List.drop_sublist _ _)
  have hpw : List.Pairwise (fun a b => lexLt a.1 b.1 = true)
      ((s.prim.drop ((pageOf prms - 1) * limitOf prms)).take (limitOf prms)) :=
    hs.sublist hsub
  refine List.Pairwise.imp_of_mem ?_ hpw
  intro a b ha hb hlex x y hdx hdy
  have hxa : a.2 = StoredVal.good x := deser_eq_some.mp hdx
  have hyb : b.2 = StoredVal.good y := deser_eq_some.mp hdy
  have hida : x.id = a.1 := hwf a (hsub.subset ha) x hxa
  have hidb : y.id = b.1 := hwf b (hsub.subset hb) y hyb
  rw [hida, hidb]
  exact hlex

theorem claim_C9_witness :
    List.Pairwise (fun r1 r2 => lexLt r1.id r2.id = true)
      (list_urls sC9 ⟨none, some 1, some 10⟩).data :=
  (claim_C9_unscoped_listing sC9 ⟨none, some 1, some 10⟩ rfl
    (by unfold TableSorted; decide)
    (by
      intro e he r hr
      rcases List.mem_cons.mp he with rfl | h2
      · cases hr
        rfl
      · obtain rfl := List.mem_singleton.mp h2
        cases hr
        rfl)).2

/-- Claim C4: when the owner's scanned index entries are the composite
keys `u:{t}` of records created at times `t` of a common decimal width
(the spec's "expected value range"; production timestamps are 16-digit
microsecond counts), the page returned by list is in strictly ascending
creation order, purely because lexicographic key order coincides with
numeric timestamp order — `list_urls` performs no sort. -/
theorem claim_C4_owner_list_ascending (s : Store) (prms : ListParams) (u : List Nat)
    (k : Nat) (hs : TableSorted s.idx) (hu : prms.ref_id = some u)
    (hwf : ∀ e ∈ trange s.idx (u ++ [58]) (u ++ [58, 123]),
      ∃ t r, e.1 = indexKey u t ∧ e.2 = StoredVal.good r ∧ r.created_at = t ∧
        10 ^ k ≤ t ∧ t < 10 ^ (k + 1)) :
    List.Pairwise (fun r1 r2 => r1.created_at < r2.created_at)
      (list_urls s prms).data := by
  have hdata : (list_urls s prms).data =
      (((trange s.idx (u ++ [58]) (u ++ [58, 123])).drop
          ((pageOf prms - 1) * limitOf prms)).take (limitOf prms)).filterMap
        (fun e => deser e.2) := by
    simp [list_urls, hu]
  rw [hdata]
  apply pairwise_of_filterMap
  have hTs : List.Pairwise (fun a b => lexLt a.1 b.1 = true)
      (trange s.idx (u ++ [58]) (u ++ [58, 123])) :=
    hs.sublist (trange_sublist _ _ _)
  have hsub : ((((trange s.idx (u ++ [58]) (u ++ [58, 123])).drop
      ((pageOf prms - 1) * limitOf prms)).take (limitOf prms))).Sublist
      (trange s.idx (u ++ [58]) (u ++ [58, 123])) :=
    (List.take_sublist _ _).trans (List.drop_sublist _ _)
  have hw : List.Pairwise (fun a b => lexLt a.1 b.1 = true)
      (((trange s.idx (u ++ [58]) (u ++ [58, 123])).drop
          ((pageOf prms - 1) * limitOf prms)).take (limitOf prms)) :=
    hTs.sublist hsub
  refine List.Pairwise.imp_of_mem ?_ hw
  intro a b ha hb hlex x y hdx hdy
  obtain ⟨t1, r1, hk1, hv1, hc1, hb1, hb1u⟩ := hwf a (hsub.subset ha)
  obtain ⟨t2, r2, hk2, hv2, hc2, hb2, hb2u⟩ := hwf b (hsub.subset hb)
  have hx : x = r1 := StoredVal.good.inj ((deser_eq_some.mp hdx).symm.trans hv1)
  have hy : y = r2 := StoredVal.good.inj ((deser_eq_some.mp hdy).symm.trans hv2)
  rw [hk1, hk2] at hlex
  have ht : t1 < t2 := indexKey_lt_of_lexLt hb1 hb1u hb2 hb2u hlex
  rw [hx, hy, hc1, hc2]
  exact ht

theorem claim_C4_witness :
    List.Pairwise (fun r1 r2 => r1.created_at < r2.created_at)
      (list_urls sC4 ⟨some [117], some 1, some 3⟩).data :=
  claim_C4_owner_list_ascending sC4 ⟨some [117], some 1, some 3⟩ [117] 1
    (by unfold TableSorted; decide) rfl
    (by
      intro e he
      have he2 : e ∈ [(indexKey [117] 10, StoredVal.good r10),
          (indexKey [117] 25, StoredVal.good r25)] := he
      rcases List.mem_cons.mp he2 with rfl | h2
      · exact ⟨10, r10, rfl, rfl, rfl, by decide, by decide⟩
      · obtain rfl := List.mem_singleton.mp h2
        exact ⟨25, r25, rfl, rfl, rfl, by decide, by decide⟩)

theorem create_state_some {s : Store} {p : CreateRequest} {f : Nat → Nat} {now : Nat}
    {dom : List Nat} {v : StoredVal} (h : tget s.prim (idToUse p f) = some v) :
    (create_short_url s p f now dom).2 = s := by
  simp [create_short_url, h]

theorem create_state_none_some {s : Store} {p : CreateRequest} {f : Nat → Nat} {now : Nat}
    {dom : List Nat} {o : List Nat} (h : tget s.prim (idToUse p f) = none)
    (ho : p.ref_id = some o) :
    (create_short_url s p f now dom).2 =
      ⟨tinsert s.prim (idToUse p f) (StoredVal.good (mkRecord p f now dom)),
       tinsert s.idx (indexKey o now) (StoredVal.good (mkRecord p f now dom))⟩ := by
  simp [create_short_url, h, ho]

theorem create_state_none_none {s : Store} {p : CreateRequest} {f : Nat → Nat} {now : Nat}
    {dom : List Nat} (h : tget s.prim (idToUse p f) = none) (ho : p.ref_id = none) :
    (create_short_url s p f now dom).2 =
      ⟨tinsert s.prim (idToUse p f) (StoredVal.good (mkRecord p f now dom)), s.idx⟩ := by
  simp [create_short_url, h, ho]

theorem delete_cases (s : Store) (id : List Nat) (rq : Option (List Nat)) :
    ((delete_short_url s id rq).2 = s ∧ (delete_short_url s id rq).1 ≠ DeleteResult.ok) ∨
    ∃ r, tget s.prim id = some (StoredVal.good r) ∧
      delete_short_url s id rq = (DeleteResult.ok, deleteApply s id r) := by
  cases htg : tget s.prim id with
  | none => left; simp [delete_short_url, htg]
  | some v =>
    cases v with
    | corrupt n => left; simp [delete_short_url, htg]
    | good r =>
      cases rq with
      | none => right; exact ⟨r, rfl, by simp [delete_short_url, htg]⟩
      | some b =>
        cases ha : r.ref_id with
        | none => left; simp [delete_short_url, htg, ha]
        | some a =>
          by_cases hab : a = b
          · right; exact ⟨r, rfl, by simp [delete_short_url, htg, ha, hab]⟩
          · left; simp [delete_short_url, htg, ha, hab]

theorem tget_ne_of_some_of_none {t : Tbl} {k1 k2 : List Nat} {v : StoredVal}
    (h1 : tget t k1 = some v) (h2 : tget t k2 = none) : ¬ k1 = k2 := by
  intro he
  rw [he, h2] at h1
  exact Option.noConfusion h1

theorem inv_empty : IndexInv ⟨[], []⟩ := by
  intro o t
  constructor
  · intro v hv
    exact absurd hv (by simp [tget])
  · intro _ id r hp
    exact absurd hp (by simp [tget])

theorem uniq_empty : OwnerTimeUnique ⟨[], []⟩ := by
  intro id1 id2 r1 r2 o h1 h2
  exact absurd h1 (by simp [tget])

theorem IndexInv_create (s : Store) (p : CreateRequest) (f : Nat → Nat) (now : Nat)
    (dom : List Nat) (hInv : IndexInv s) (hU : OwnerTimeUnique s)
    (hfresh : ∀ o, p.ref_id = some o → ∀ id r,
      tget s.prim id = some (StoredVal.good r) → r.ref_id = some o →
      r.created_at ≠ now) :
    IndexInv (create_short_url s p f now dom).2 ∧
    OwnerTimeUnique (create_short_url s p f now dom).2 := by
  cases htg : tget s.prim (idToUse p f) with
  | some v =>
    rw [create_state_some htg]
    exact ⟨hInv, hU⟩
  | none =>
    have hrecid : (mkRecord p f now dom).ref_id = p.ref_id := rfl
    have hrecct : (mkRecord p f now dom).created_at = now := rfl
    cases ho : p.ref_id with
    | none =>
      rw [create_state_none_none htg ho]
      rw [ho] at hrecid
      constructor
      · intro o t
        constructor
        · intro v hv
          obtain ⟨id0, r0, hp0, hveq, href, hct⟩ := (hInv o t).1 v hv
          refine ⟨id0, r0, ?_, hveq, href, hct⟩
          rw [tget_tinsert]
          simp [tget_ne_of_some_of_none hp0 htg, hp0]
        · intro hnone id0 r0 hp0
          rw [tget_tinsert] at hp0
          by_cases he : id0 = idToUse p f
          · rw [if_pos he] at hp0
            have hr0 : mkRecord p f now dom = r0 :=
              StoredVal.good.inj (Option.some.inj hp0)
            rintro ⟨hro, _⟩
            rw [← hr0, hrecid] at hro
            exact Option.noConfusion hro
          · rw [if_neg he] at hp0
            exact (hInv o t).2 hnone id0 r0 hp0
      · intro id1 id2 r1 r2 o h1 h2 hr1 hr2 hct
        rw [tget_tinsert] at h1 h2
        by_cases he1 : id1 = idToUse p f
        · rw [if_pos he1] at h1
          have hr0 : mkRecord p f now dom = r1 := StoredVal.good.inj (Option.some.inj h1)
          rw [← hr0, hrecid] at hr1
          exact Option.noConfusion hr1
        · rw [if_neg he1] at h1
          by_cases he2 : id2 = idToUse p f
          · rw [if_pos he2] at h2
            have hr0 : mkRecord p f now dom = r2 := StoredVal.good.inj (Option.some.inj h2)
            rw [← hr0, hrecid] at hr2
            exact Option.noConfusion hr2
          · rw [if_neg he2] at h2
            exact hU id1 id2 r1 r2 o h1 h2 hr1 hr2 hct
    | some o0 =>
      rw [create_state_none_some htg ho]
      rw [ho] at hrecid
      constructor
      · intro o t
        by_cases hkey : indexKey o t = indexKey o0 now
        · obtain ⟨hoo, htt⟩ := indexKey_inj hkey
          constructor
          · intro v hv
            rw [tget_tinsert, if_pos hkey] at hv
            have hveq : StoredVal.good (mkRecord p f now dom) = v := Option.some.inj hv
            refine ⟨idToUse p f, mkRecord p f now dom, ?_, hveq.symm, ?_, ?_⟩
            · rw [tget_tinsert, if_pos rfl, hveq]
            · rw [hrecid, hoo]
            · rw [hrecct, htt]
          · intro hnone
            rw [tget_tinsert, if_pos hkey] at hnone
            exact absurd hnone (by simp)
        · have hidx : tget (tinsert s.idx (indexKey o0 now)
              (StoredVal.good (mkRecord p f now dom))) (indexKey o t) =
              tget s.idx (indexKey o t) := by
            rw [tget_tinsert, if_neg hkey]
          constructor
          · intro v hv
            rw [hidx] at hv
            obtain ⟨id0, r0, hp0, hveq, href, hct⟩ := (hInv o t).1 v hv
            refine ⟨id0, r0, ?_, hveq, href, hct⟩
            rw [tget_tinsert]
            simp [tget_ne_of_some_of_none hp0 htg, hp0]
          · intro hnone id0 r0 hp0
            rw [hidx] at hnone
            rw [tget_tinsert] at hp0
            by_cases he : id0 = idToUse p f
            · rw [if_pos he] at hp0
              have hr0 : mkRecord p f now dom = r0 :=
                StoredVal.good.inj (Option.some.inj hp0)
              rintro ⟨hro, hct0⟩
              rw [← hr0, hrecid] at hro
              rw [← hr0, hrecct] at hct0
              have hoeq : o = o0 := (Option.some.inj hro).symm
              exact hkey (by rw [hoeq, hct0])
            · rw [if_neg he] at hp0
              exact (hInv o t).2 hnone id0 r0 hp0
      · intro id1 id2 r1 r2 o h1 h2 hr1 hr2 hct
        rw [tget_tinsert] at h1 h2
        by_cases he1 : id1 = idToUse p f
        · by_cases he2 : id2 = idToUse p f
          · rw [he1, he2]
          · rw [if_pos he1] at h1
            rw [if_neg he2] at h2
            have hr0 : mkRecord p f now dom = r1 := StoredVal.good.inj (Option.some.inj h1)
            have h1b : r1.ref_id = some o0 := by rw [← hr0]; exact hrecid
            exact absurd (by rw [← hct, ← hr0]; exact hrecct)
              (hfresh o0 ho id2 r2 h2 (hr2.trans (hr1.symm.trans h1b)))
        · rw [if_neg he1] at h1
          by_cases he2 : id2 = idToUse p f
          · rw [if_pos he2] at h2
            have hr0 : mkRecord p f now dom = r2 := StoredVal.good.inj (Option.some.inj h2)
            have h2b : r2.ref_id = some o0 := by rw [← hr0]; exact hrecid
            exact absurd (by rw [hct, ← hr0]; exact hrecct)
              (hfresh o0 ho id1 r1 h1 (hr1.trans (hr2.symm.trans h2b)))
          · rw [if_neg he2] at h2
            exact hU id1 id2 r1 r2 o h1 h2 hr1 hr2 hct

theorem IndexInv_delete (s : Store) (id : List Nat) (rq : Option (List Nat))
    (hInv : IndexInv s) (hU : OwnerTimeUnique s) :
    IndexInv (delete_short_url s id rq).2 ∧
    OwnerTimeUnique (delete_short_url s id rq).2 := by
  rcases delete_cases s id rq with ⟨hst, _⟩ | ⟨r, htg, hok⟩
  · rw [hst]
    exact ⟨hInv, hU⟩
  · rw [hok]
    have hUres : ∀ (t2 : Tbl), OwnerTimeUnique ⟨tremove s.prim id, t2⟩ := by
      intro t2 id1 id2 r1 r2 o h1 h2 hr1 hr2 hct
      rw [tget_tremove] at h1 h2
      by_cases he1 : id1 = id
      · rw [if_pos he1] at h1
        exact absurd h1 (by simp)
      · rw [if_neg he1] at h1
        by_cases he2 : id2 = id
        · rw [if_pos he2] at h2
          exact absurd h2 (by simp)
        · rw [if_neg he2] at h2
          exact hU id1 id2 r1 r2 o h1 h2 hr1 hr2 hct
    cases ha : r.ref_id with
    | none =>
      have hda : deleteApply s id r = ⟨tremove s.prim id, s.idx⟩ := by
        simp [deleteApply, ha]
      rw [hda]
      refine ⟨?_, hUres s.idx⟩
      intro o t
      constructor
      · intro v hv
        obtain ⟨id0, r0, hp0, hveq, href, hct⟩ := (hInv o t).1 v hv
        have hne : ¬ id0 = id := by
          intro he
          rw [he, htg] at hp0
          have hr0 : StoredVal.good r = v := Option.some.inj hp0
          rw [hveq] at hr0
          have : r = r0 := StoredVal.good.inj hr0
          rw [← this] at href
          rw [ha] at href
          exact Option.noConfusion href
        refine ⟨id0, r0, ?_, hveq, href, hct⟩
        rw [tget_tremove, if_neg hne]
        exact hp0
      · intro hnone id0 r0 hp0
        rw [tget_tremove] at hp0
        by_cases he : id0 = id
        · rw [if_pos he] at hp0
          exact absurd hp0 (by simp)
        · rw [if_neg he] at hp0
          exact (hInv o t).2 hnone id0 r0 hp0
    | some a =>
      have hda : deleteApply s id r =
          ⟨tremove s.prim id, tremove s.idx (indexKey a r.created_at)⟩ := by
        simp [deleteApply, ha]
      rw [hda]
      refine ⟨?_, hUres _⟩
      intro o t
      by_cases hkey : indexKey o t = indexKey a r.created_at
      · obtain ⟨hoo, htt⟩ := indexKey_inj hkey
        constructor
        · intro v hv
          rw [tget_tremove, if_pos hkey] at hv
          exact absurd hv (by simp)
        · intro _ id0 r0 hp0
          rw [tget_tremove] at hp0
          by_cases he : id0 = id
          · rw [if_pos he] at hp0
            exact absurd hp0 (by simp)
          · rw [if_neg he] at hp0
            rintro ⟨hro, hct0⟩
            refine he (hU id0 id r0 r a hp0 htg ?_ ha ?_)
            · rw [hro, hoo]
            · rw [hct0, htt]
      · have hidx : tget (tremove s.idx (indexKey a r.created_at)) (indexKey o t) =
            tget s.idx (indexKey o t) := by
          rw [tget_tremove, if_neg hkey]
        constructor
        · intro v hv
          rw [hidx] at hv
          obtain ⟨id0, r0, hp0, hveq, href, hct⟩ := (hInv o t).1 v hv
          have hne : ¬ id0 = id := by
            intro he
            rw [he, htg] at hp0
            have hr0 : StoredVal.good r = v := Option.some.inj hp0
            rw [hveq] at hr0
            have hrr : r = r0 := StoredVal.good.inj hr0
            apply hkey
            rw [← hrr] at href hct
            rw [ha] at href
            have hoa : o = a := (Option.some.inj href).symm
            rw [hoa, hct]
          refine ⟨id0, r0, ?_, hveq, href, hct⟩
          rw [tget_tremove, if_neg hne]
          exact hp0
        · intro hnone id0 r0 hp0
          rw [hidx] at hnone
          rw [tget_tremove] at hp0
          by_cases he : id0 = id
          · rw [if_pos he] at hp0
            exact absurd hp0 (by simp)
          · rw [if_neg he] at hp0
            exact (hInv o t).2 hnone id0 r0 hp0

theorem delete_removes_index {s : Store} {id : List Nat} {rq : Option (List Nat)}
    {r : UrlRecord} {o : List Nat} (htg : tget s.prim id = some (StoredVal.good r))
    (hok : (delete_short_url s id rq).1 = DeleteResult.ok) (ho : r.ref_id = some o) :
    tget (delete_short_url s id rq).2.idx (indexKey o r.created_at) = none := by
  rcases delete_cases s id rq with ⟨_, hne⟩ | ⟨r2, htg2, hok2⟩
  · exact absurd hok hne
  · rw [htg] at htg2
    have hrr : r = r2 := StoredVal.good.inj (Option.some.inj htg2)
    rw [hok2]
    simp only [deleteApply]
    rw [← hrr, ho]
    rw [tget_tremove, if_pos rfl]

/-- Claim C3 (invariant I2): provided the invariant and owner/time
uniqueness hold before the operation — uniqueness is what the spec's
"created_at monotonic per-process" provides, expressed here as the
freshness hypothesis on the create timestamp — every completed create and
every completed delete preserves the two-table invariant: an index entry
under `{owner}:{micros}` exists iff a primary record with that owner and
creation time exists, and the entry is byte-identical to that record's
primary value.  In particular a create without `ref_id` writes no index
entry, and a successful delete of an owned record removes its index entry
in the same transaction. -/
theorem claim_C3_index_consistency :
    (∀ s p f now dom, IndexInv s → OwnerTimeUnique s →
      (∀ o, p.ref_id = some o → ∀ id r,
        tget s.prim id = some (StoredVal.good r) → r.ref_id = some o →
        r.created_at ≠ now) →
      IndexInv (create_short_url s p f now dom).2 ∧
      OwnerTimeUnique (create_short_url s p f now dom).2 ∧
      (p.ref_id = none → (create_short_url s p f now dom).2.idx = s.idx)) ∧
    (∀ s id rq, IndexInv s → OwnerTimeUnique s →
      IndexInv (delete_short_url s id rq).2 ∧
      OwnerTimeUnique (delete_short_url s id rq).2 ∧
      (∀ r o, tget s.prim id = some (StoredVal.good r) →
        (delete_short_url s id rq).1 = DeleteResult.ok → r.ref_id = some o →
        tget (delete_short_url s id rq).2.idx (indexKey o r.created_at) = none)) := by
  constructor
  · intro s p f now dom hInv hU hfresh
    obtain ⟨h1, h2⟩ := IndexInv_create s p f now dom hInv hU hfresh
    refine ⟨h1, h2, ?_⟩
    intro ho
    cases htg : tget s.prim (idToUse p f) with
    | some v => rw [create_state_some htg]
    | none => rw [create_state_none_none htg ho]
  · intro s id rq hInv hU
    obtain ⟨h1, h2⟩ := IndexInv_delete s id rq hInv hU
    exact ⟨h1, h2, fun r o htg hok ho => delete_removes_index htg hok ho⟩

theorem claim_C3_witness :
    IndexInv (delete_short_url
      (create_short_url ⟨[], []⟩ pC1 f0 5 []).2 [97] (some [111])).2 := by
  have hc := claim_C3_index_consistency.1 ⟨[], []⟩ pC1 f0 5 [] inv_empty uniq_empty
    (fun o ho id r hp => absurd hp (by simp [tget]))
  exact (claim_C3_index_consistency.2 (create_short_url ⟨[], []⟩ pC1 f0 5 []).2
    [97] (some [111]) hc.1 hc.2.1).1

end Shortener
